import Mathlib

/-!
Verification of the interactive command shell (`lib/interactive.py`).

The development shallowly embeds the shell's data model and operations:
Python dicts become association lists (first-match lookup, in-place update,
append on fresh keys), the session becomes an explicit state record, and
every command executor becomes a pure function returning the new state
together with its observable outcome (normal return, error message printed
via `error(...)`, an uncaught exception, or `sys.exit`).
-/

set_option maxHeartbeats 1000000

namespace Plasma

/-! ## Association-list model of Python dictionaries

`dlookup` is `d[k]`/`k in d` (first matching key), `dinsert` is `d[k] = v`
(update in place if the key is present, append otherwise — the order of a
Python dict), `derase` is `del d[k]`. -/

def dlookup {α β : Type} [DecidableEq α] (k : α) : List (α × β) → Option β
  | [] => none
  | (k', v) :: rest => if k' = k then some v else dlookup k rest

def dinsert {α β : Type} [DecidableEq α] (k : α) (v : β) : List (α × β) → List (α × β)
  | [] => [(k, v)]
  | (k', w) :: rest => if k' = k then (k, v) :: rest else (k', w) :: dinsert k v rest

def derase {α β : Type} [DecidableEq α] (k : α) (d : List (α × β)) : List (α × β) :=
  d.filter (fun p => p.1 ≠ k)

/-! ## Model of Python `int(s, 16)`

`__exec_sym` converts the address token with `int(args[2], 16)`.  Python
accepts optional surrounding whitespace, an optional sign, an optional
`0x`/`0X` prefix, and hexadecimal digits in which a single underscore may
appear before any digit of the prefixed form (grammar
`"0" ("x"|"X") (["_"] hexdigit)+`, and `hexdigit (["_"] hexdigit)*` for the
unprefixed form).  `none` models the `ValueError` that the bare `except`
in `__exec_sym` catches. -/

def hexVal (c : Char) : Option Nat :=
  if '0' ≤ c ∧ c ≤ '9' then some (c.toNat - '0'.toNat)
  else if 'a' ≤ c ∧ c ≤ 'f' then some (c.toNat - 'a'.toNat + 10)
  else if 'A' ≤ c ∧ c ≤ 'F' then some (c.toNat - 'A'.toNat + 10)
  else none

def parseHexTail (acc : Nat) : List Char → Option Nat
  | [] => some acc
  | '_' :: c :: cs =>
    match hexVal c with
    | some v => parseHexTail (16 * acc + v) cs
    | none => none
  | ['_'] => none
  | c :: cs =>
    match hexVal c with
    | some v => parseHexTail (16 * acc + v) cs
    | none => none

def parseHexNoPre : List Char → Option Nat
  | [] => none
  | c :: cs =>
    match hexVal c with
    | some v => parseHexTail v cs
    | none => none

def parseHexAfterSign (cs : List Char) : Option Nat :=
  match cs with
  | '0' :: 'x' :: rest => if rest.isEmpty then none else parseHexTail 0 rest
  | '0' :: 'X' :: rest => if rest.isEmpty then none else parseHexTail 0 rest
  | _ => parseHexNoPre cs

def isPyWhitespace (c : Char) : Bool :=
  c = ' ' ∨ c = '\t' ∨ c = '\n' ∨ c = '\x0d' ∨ c = '\x0b' ∨ c = '\x0c'

def stripWS (cs : List Char) : List Char :=
  ((cs.dropWhile isPyWhitespace).reverse.dropWhile isPyWhitespace).reverse

def parseHexPy (s : String) : Option Int :=
  match stripWS s.data with
  | '+' :: rest => (parseHexAfterSign rest).map (fun n => (n : Int))
  | '-' :: rest => (parseHexAfterSign rest).map (fun n => -(n : Int))
  | cs => (parseHexAfterSign cs).map (fun n => (n : Int))

/-! ## Session state and command outcomes

`BinState` is the part of `ctx.dis.binary` the shell mutates: the
name → address symbol dict and the address → name reverse dict.
`IState` is the session state of `Interactive`: `dis` (the loaded binary,
`None` until a load succeeds) and the `database_modified` dirty flag.

`CmdOut` is a command's observable outcome: a normal return, a message
printed via `error(...)`, an uncaught Python exception, or `sys.exit`. -/

structure BinState where
  symbols : List (String × Int)
  reverse_symbols : List (Int × String)
deriving DecidableEq

structure IState where
  dis : Option BinState
  database_modified : Bool
deriving DecidableEq

inductive CmdOut
  | ok
  | errMsg (m : String)
  | raises (e : String)
  | exits
deriving DecidableEq

/-- Python `pre.startswith(s)` / `str.startswith`, on explicit characters. -/
def strStartsAux : List Char → List Char → Bool
  | [], _ => true
  | _ :: _, [] => false
  | c :: cs, d :: ds => c = d && strStartsAux cs ds

def startswith (pre s : String) : Bool :=
  strStartsAux pre.data s.data

/-- Python slicing `s[n:]` (by characters). -/
def pydrop (s : String) (n : Nat) : String :=
  String.mk (s.data.drop n)

/-- The dict updates of `__exec_sym`'s save-new-symbol block
(lib/interactive.py:621-626) when `del reverse_symbols[last]` does not
raise: if the name is already bound, the reverse entry of its previous
address is deleted first; then the forward and reverse insertions are
performed. -/
def symStore (bin : BinState) (name : String) (addr : Int) : BinState :=
  let bin1 :=
    match dlookup name bin.symbols with
    | some last => { bin with reverse_symbols := derase last bin.reverse_symbols }
    | none => bin
  { symbols := dinsert name addr bin1.symbols,
    reverse_symbols := dinsert addr name bin1.reverse_symbols }

/-- `Interactive.__exec_sym` (lib/interactive.py:588-629).  The branches are
in source order: missing binary; bare `sym` (prints the symbol table);
`args[1][0] == "|"` filter form (an empty `args[1]` raises `IndexError` on
the subscript); arity errors; the `0x` prefix check; then the
save-new-symbol `try` block.  Inside the `try`, `int(args[2], 16)` may
raise `ValueError` before anything is assigned; once it succeeds the dirty
flag is set, and then `del reverse_symbols[last]` raises `KeyError` when a
rebound name's previous address has no reverse entry — the bare `except`
catches either exception and prints the same message, so on the `KeyError`
path the dicts are unchanged but the dirty flag is already true.  When the
`del` is safe (or the name is new) the dicts are updated by `symStore`. -/
def exec_sym (st : IState) (args : List String) : IState × CmdOut :=
  match st.dis with
  | none => (st, .errMsg "load a file before")
  | some bin =>
    if args.length = 1 then (st, .ok)
    else if (args.getD 1 "").data = [] then (st, .raises "IndexError")
    else if (args.getD 1 "").data.head? = some '|' then
      if args.length = 2 ∨ args.length > 3 then
        (st, .errMsg "bad arguments (warn: need spaces between |)")
      else (st, .ok)
    else if args.length > 3 then (st, .errMsg "bad arguments")
    else if args.length = 2 then
      (st, .errMsg "an address is required to save the symbol")
    else if ¬ startswith "0x" (args.getD 2 "") then
      (st, .errMsg "the address should starts with 0x")
    else
      match parseHexPy (args.getD 2 "") with
      | none => (st, .errMsg "there was an error when creating a symbol")
      | some addr =>
        match dlookup (args.getD 1 "") bin.symbols with
        | some last =>
          match dlookup last bin.reverse_symbols with
          | none =>
            ({ dis := some bin, database_modified := true },
              .errMsg "there was an error when creating a symbol")
          | some _ =>
            ({ dis := some (symStore bin (args.getD 1 "") addr),
               database_modified := true }, .ok)
        | none =>
          ({ dis := some (symStore bin (args.getD 1 "") addr),
             database_modified := true }, .ok)

/-- `Interactive.__exec_save` (lib/interactive.py:736-745).  The JSON write
to `ctx.db_path` is external I/O; the session-state effect is clearing the
dirty flag. -/
def exec_save (st : IState) (_args : List String) : IState × CmdOut :=
  ({ st with database_modified := false }, .ok)

/-- `Interactive.__exec_exit` (lib/interactive.py:461-462): `sys.exit(0)`,
unconditionally, whatever the state. -/
def exec_exit (st : IState) (_args : List String) : IState × CmdOut :=
  (st, .exits)

/-- Outcome of one turn of the `while 1` loop in `Interactive.__init__`
(lib/interactive.py:320-324) once `rl.loop()` has returned control
(simulated end-of-input). -/
inductive ReplStep
  | terminated
  | warnContinue
deriving DecidableEq

/-- lib/interactive.py:320-324: `while 1: rl.loop();
if not self.database_modified: break;
print("the database was modified, run save or exit to force")`. -/
def replAfterLoop (st : IState) : ReplStep :=
  if st.database_modified then .warnContinue else .terminated

/-! ## Command registry and dispatcher -/

/-- Which completion callback a command registers (`None`,
`self.__complete_load`, or `self.__complete_x`). -/
inductive CompleterRef
  | load
  | x
deriving DecidableEq

/-- The `Command` entries of `Interactive.COMMANDS`: `max_args`, whether
`callback_exec` is not `None`, and which completion callback is set.
(The help-text strings play no role in any claim.) -/
structure Command where
  max_args : Nat
  has_exec : Bool
  completer : Option CompleterRef
deriving DecidableEq

/-- `Interactive.COMMANDS` (lib/interactive.py:75-307), in source order.
`set` is the placeholder with `callback_exec = None`. -/
def COMMANDS : List (String × Command) :=
  [("help", ⟨0, true, none⟩),
   ("save", ⟨0, true, none⟩),
   ("load", ⟨1, true, some .load⟩),
   ("lrawx86", ⟨1, true, some .load⟩),
   ("lrawx64", ⟨1, true, some .load⟩),
   ("lrawarm", ⟨1, true, some .load⟩),
   ("lrawmips", ⟨1, true, some .load⟩),
   ("lrawmips64", ⟨1, true, some .load⟩),
   ("x", ⟨1, true, some .x⟩),
   ("da", ⟨2, true, some .x⟩),
   ("db", ⟨2, true, some .x⟩),
   ("dd", ⟨2, true, some .x⟩),
   ("dw", ⟨2, true, some .x⟩),
   ("dq", ⟨2, true, some .x⟩),
   ("dump", ⟨2, true, some .x⟩),
   ("set", ⟨3, false, none⟩),
   ("sym", ⟨3, true, some .x⟩),
   ("calls", ⟨1, true, some .x⟩),
   ("exit", ⟨0, true, none⟩),
   ("sections", ⟨0, true, none⟩),
   ("info", ⟨0, true, none⟩),
   ("display.print_section", ⟨0, true, none⟩),
   ("display.print_comments", ⟨0, true, none⟩)]

/-- `Interactive.COMMANDS_ALPHA` (lib/interactive.py:50-73), in source
order: drives `help` output and command-name completion. -/
def COMMANDS_ALPHA : List String :=
  ["calls", "da", "db", "dd", "dw", "dq", "dump", "exit", "help", "info",
   "load", "lrawarm", "lrawmips", "lrawmips64", "lrawx86", "lrawx64",
   "save", "sections", "sym", "x",
   "display.print_section", "display.print_comments"]

/-- What `Interactive.exec_command` (lib/interactive.py:446-458) does with
the token list `args = shlex.split(line)`: `args[0]` on an empty list
raises `IndexError`; an unregistered name prints `"unknown command"`; too
many arguments prints `"%s takes max %d args"`; otherwise the executor is
invoked when registered (`silent` models the placeholder entries whose
`callback_exec` is `None`). -/
inductive DispatchResult
  | raises (e : String)
  | errorMsg (m : String)
  | silent
  | invokes (name : String)
deriving DecidableEq

def exec_command (args : List String) : DispatchResult :=
  match args with
  | [] => .raises "IndexError"
  | cmd :: _ =>
    match dlookup cmd COMMANDS with
    | none => .errorMsg "unknown command"
    | some c =>
      if args.length - 1 > c.max_args then
        .errorMsg (cmd ++ " takes max " ++ toString c.max_args ++ " args")
      else if c.has_exec then .invokes cmd
      else .silent

/-! ## Completion engine (`Interactive.complete` and its callbacks)

`complete` receives `tokens = shlex.split(line + "_")` (the sentinel
underscore guarantees a nonempty final token); the file-system and the
loaded binary's symbol names are explicit parameters of the embedding
(`CompleteEnv`). -/

def MAX_PRINT_COMPLETE : Nat := 80

/-- The command-name scan of `complete` (lib/interactive.py:351-360): for
each name of `COMMANDS_ALPHA` whose prefix matches, append
`cmd[len(last_tok):] + " "`; when the match counter reaches
`MAX_PRINT_COMPLETE` the whole list is replaced by `None`. -/
def commandCompleteAux (last_tok : String) : List String → Nat → Option (List String)
  | [], _ => some []
  | cmd :: rest, i =>
    if startswith last_tok cmd then
      if i + 1 = MAX_PRINT_COMPLETE then none
      else
        match commandCompleteAux last_tok rest (i + 1) with
        | none => none
        | some comp => some ((pydrop cmd last_tok.length ++ " ") :: comp)
    else commandCompleteAux last_tok rest i

def commandNameComplete (last_tok : String) : Option (List String) :=
  commandCompleteAux last_tok COMMANDS_ALPHA 0

/-- `Interactive.__find_symbol` (lib/interactive.py:434-443): same loop
over the loaded binary's symbol names, appending
`(sym + " ")[len(last_tok):]`, with the same 80 cap returning `None`. -/
def findSymbolAux (last_tok : String) : List String → Nat → Option (List String)
  | [], _ => some []
  | s :: rest, i =>
    if startswith last_tok s then
      if i + 1 = MAX_PRINT_COMPLETE then none
      else
        match findSymbolAux last_tok rest (i + 1) with
        | none => none
        | some comp => some (pydrop (s ++ " ") last_tok.length :: comp)
    else findSymbolAux last_tok rest i

def find_symbol (symbols : List String) (last_tok : String) : Option (List String) :=
  findSymbolAux last_tok symbols 0

/-- `Interactive.__complete_x` (lib/interactive.py:428-431): empty unless
completing the first argument of a loaded binary. -/
def complete_x (dis : Option (List String)) (nth_arg : Nat) (last_tok : String) :
    Option (List String) :=
  if nth_arg ≠ 1 ∨ dis = none then some []
  else find_symbol (dis.getD []) last_tok

/-- `os.path.basename`: everything after the last `/`. -/
def pybasename (p : String) : String :=
  String.mk ((p.data.reverse.takeWhile (fun c => c ≠ '/')).reverse)

/-- `os.path.dirname`: everything up to the last `/`, with trailing
slashes stripped unless the result would be empty. -/
def pydirname (p : String) : String :=
  let head := (p.data.reverse.dropWhile (fun c => c ≠ '/')).reverse
  let stripped := (head.reverse.dropWhile (fun c => c = '/')).reverse
  String.mk (if stripped.isEmpty then head else stripped)

/-- `f.replace(" ", "\\ ")` in `__complete_load`. -/
def escapeSpaces (f : String) : String :=
  String.mk (f.data.foldr (fun c acc => if c = ' ' then '\\' :: ' ' :: acc else c :: acc) [])

/-- Loop body of `Interactive.__complete_load` (lib/interactive.py:410-423)
over the `os.listdir` result; each entry carries its name and whether it
is a directory. -/
def completeLoadAux (basename : String) : List (String × Bool) → Nat → Option (List String)
  | [], _ => some []
  | (f, dir) :: rest, i =>
    if startswith basename f then
      if i + 1 = MAX_PRINT_COMPLETE then none
      else
        let s := if dir then escapeSpaces f ++ "/" else escapeSpaces f ++ " "
        match completeLoadAux basename rest (i + 1) with
        | none => none
        | some comp => some (pydrop s basename.length :: comp)
    else completeLoadAux basename rest i

/-- `Interactive.__complete_load` (lib/interactive.py:399-425).  `fs`
models `os.listdir` plus `os.path.isdir`; `none` models the
`FileNotFoundError` turned into an empty candidate list. -/
def complete_load (fs : String → Option (List (String × Bool))) (nth_arg : Nat)
    (last_tok : String) : Option (List String) :=
  if nth_arg ≠ 1 then some []
  else
    let basename := pybasename last_tok
    let dirname0 := pydirname last_tok
    let dirname := if dirname0.isEmpty then "." else dirname0
    match fs dirname with
    | none => some []
    | some entries => completeLoadAux basename entries 0

/-- The word picked as `comp[ref]` in `complete` (lib/interactive.py:
377-380): `words_idx` keeps, for each length, the index of the last word
of that length, so `ref` designates the last word of minimal length. -/
def lastMinWord : List String → String
  | [] => ""
  | w :: ws => ws.foldl (fun best x => if x.length ≤ best.length then x else best) w

/-- The character scan of `complete` (lib/interactive.py:386-394): walk
the reference word, keeping each character on which every word agrees at
that position, stopping at the first disagreement. -/
def commonLoop (words : List (List Char)) : List Char → Nat → List Char
  | [], _ => []
  | c :: rest, i =>
    if words.all (fun w => w.get? i = some c) then c :: commonLoop words rest (i + 1)
    else []

def commonString (comp : List String) : String :=
  String.mk (commonLoop (comp.map String.data) (lastMinWord comp).data 0)

/-- Lines 370-396 of `complete`: `None` from a sub-completion means "too
much possibilities" and yields `(None, None, None)`; at most one candidate
is returned without a common string; otherwise the common string is
computed. -/
def completeResult (comp : Option (List String)) (last_tok : String) :
    Option (List String) × Option String × Option String :=
  match comp with
  | none => (none, none, none)
  | some cs =>
    if cs.length ≤ 1 then (some cs, some last_tok, none)
    else (some cs, some last_tok, some (commonString cs))

structure CompleteEnv where
  fs : String → Option (List (String × Bool))
  dis : Option (List String)

/-- Resolution of `COMMANDS[first_tok].callback_complete` followed by the
call `f(tmp_line, len(tokens)-1, last_tok)`. -/
def runCompleter (env : CompleteEnv) (c : Option CompleterRef) (nth_arg : Nat)
    (last_tok : String) : Option (List String) :=
  match c with
  | none => some []
  | some .load => complete_load env.fs nth_arg last_tok
  | some .x => complete_x env.dis nth_arg last_tok

/-- `Interactive.complete` (lib/interactive.py:340-396) on
`tokens = shlex.split(line + "_")` (hence never `[]` for a real line).
A `KeyError` on an unregistered first token leaves `comp = []`. -/
def complete (env : CompleteEnv) (tokens : List String) :
    Option (List String) × Option String × Option String :=
  match tokens with
  | [] => (none, none, none)
  | first_tok :: rest =>
    let last_tok := String.mk (tokens.getLastD "").data.dropLast
    let comp : Option (List String) :=
      if rest.isEmpty then commandNameComplete last_tok
      else
        match dlookup first_tok COMMANDS with
        | none => some []
        | some c => runCompleter env c.completer (tokens.length - 1) last_tok
    completeResult comp last_tok

/-! ## Symbol-table bijection and command sequences -/

/-- The spec's bijection invariant on the two symbol dicts: every forward
pair is reflected by the reverse dict and vice versa. -/
def Bij (fwd : List (String × Int)) (rev : List (Int × String)) : Prop :=
  (∀ n a, dlookup n fwd = some a → dlookup a rev = some n) ∧
  (∀ a n, dlookup a rev = some n → dlookup n fwd = some a)

/-- Run a sequence of command lines through `__exec_sym`, threading the
session state. -/
def runSyms (st : IState) : List (List String) → IState
  | [] => st
  | args :: rest => runSyms (exec_sym st args).1 rest

/-- A sequence of `sym` command lines is *fresh* for a state when, at each
step, any address about to be bound by a symbol definition is not
currently held by a different name in the reverse dict. -/
inductive FreshSeq : IState → List (List String) → Prop
  | nil (st : IState) : FreshSeq st []
  | cons (st : IState) (args : List String) (rest : List (List String)) :
      (∀ bin s n a v, st.dis = some bin → args = [s, n, a] → parseHexPy a = some v →
        dlookup v bin.reverse_symbols = none ∨ dlookup v bin.reverse_symbols = some n) →
      FreshSeq (exec_sym st args).1 rest →
      FreshSeq st (args :: rest)

/-- A fresh, empty session holding a loaded binary with no symbols. -/
def emptySession : IState :=
  { dis := some { symbols := [], reverse_symbols := [] }, database_modified := false }

/-- A symbol list producing exactly 80 completion matches for the empty
token. -/
def sym80 : List String :=
  (List.range 80).map (fun i => "s" ++ toString i)

/-- An environment for `complete` whose directory listings are empty and
with no binary loaded (irrelevant to command-name completion). -/
def emptyEnv : CompleteEnv :=
  { fs := fun _ => some [], dis := none }

/-! ## Lemmas about the dictionary model -/

theorem dlookup_dinsert_self {α β : Type} [DecidableEq α] (k : α) (v : β)
    (d : List (α × β)) : dlookup k (dinsert k v d) = some v := by
  induction d with
  | nil => simp [dinsert, dlookup]
  | cons hd tl ih =>
    obtain ⟨k0, w⟩ := hd
    by_cases hk : k0 = k
    · simp [dinsert, hk, dlookup]
    · simp [dinsert, hk, dlookup, ih]

theorem dlookup_dinsert_ne {α β : Type} [DecidableEq α] (k k' : α) (v : β)
    (d : List (α × β)) (h : k' ≠ k) :
    dlookup k' (dinsert k v d) = dlookup k' d := by
  induction d with
  | nil => simp [dinsert, dlookup, Ne.symm h]
  | cons hd tl ih =>
    obtain ⟨k0, w⟩ := hd
    by_cases hk : k0 = k
    · subst hk
      simp [dinsert, dlookup, Ne.symm h]
    · simp only [dinsert, if_neg hk, dlookup, ih]

theorem dlookup_derase_self {α β : Type} [DecidableEq α] (k : α)
    (d : List (α × β)) : dlookup k (derase k d) = none := by
  induction d with
  | nil => simp [derase, dlookup]
  | cons hd tl ih =>
    obtain ⟨k0, w⟩ := hd
    by_cases hk : k0 = k
    · subst hk
      simpa [derase, dlookup] using ih
    · simp only [derase, List.filter_cons] at ih ⊢
      simp only [decide_not]
      rw [if_pos (by simpa using hk)]
      simpa [dlookup, hk] using ih

theorem dlookup_derase_ne {α β : Type} [DecidableEq α] (k k' : α)
    (d : List (α × β)) (h : k' ≠ k) :
    dlookup k' (derase k d) = dlookup k' d := by
  induction d with
  | nil => simp [derase, dlookup]
  | cons hd tl ih =>
    obtain ⟨k0, w⟩ := hd
    by_cases hk : k0 = k
    · subst hk
      simp only [derase, List.filter_cons] at ih ⊢
      simp only [decide_not]
      rw [if_neg (by simp)]
      simpa [dlookup, Ne.symm h] using ih
    · simp only [derase, List.filter_cons] at ih ⊢
      simp only [decide_not]
      rw [if_pos (by simpa using hk)]
      by_cases hk' : k0 = k'
      · simp [dlookup, hk']
      · simpa [dlookup, hk'] using ih

theorem dlookup_of_mem {α β : Type} [DecidableEq α] {k : α} {v : β}
    {d : List (α × β)} (hnd : (d.map Prod.fst).Nodup) (hm : (k, v) ∈ d) :
    dlookup k d = some v := by
  induction d with
  | nil => cases hm
  | cons hd tl ih =>
    obtain ⟨k0, w⟩ := hd
    simp only [List.map_cons, List.nodup_cons] at hnd
    rcases List.mem_cons.mp hm with h | h
    · obtain ⟨rfl, rfl⟩ := Prod.mk.injEq .. ▸ h
      simp [dlookup]
    · have hk : k0 ≠ k := by
        intro hc
        subst hc
        exact hnd.1 (List.mem_map.mpr ⟨(k0, v), h, rfl⟩)
      simp only [dlookup, if_neg hk]
      exact ih hnd.2 h

/-! ## Shape lemmas for `exec_sym` -/

/-- On a three-token line with a nonempty, non-filter name, a `0x`-prefixed
address, a successful `int` conversion, and a safe `del` (any previous
address of the name still has its reverse entry), `__exec_sym` stores the
symbol and sets the dirty flag. -/
theorem exec_sym_success (st : IState) (bin : BinState) (s n a : String) (v : Int)
    (hdis : st.dis = some bin) (hn : n.data ≠ []) (hp : n.data.head? ≠ some '|')
    (h0x : startswith "0x" a = true) (hv : parseHexPy a = some v)
    (hdel : ∀ last, dlookup n bin.symbols = some last →
      dlookup last bin.reverse_symbols ≠ none) :
    exec_sym st [s, n, a] =
      ({ dis := some (symStore bin n v), database_modified := true }, CmdOut.ok) := by
  obtain ⟨d, dirty⟩ := st
  simp only at hdis
  subst hdis
  simp only [exec_sym, List.getD, List.get?, List.length_cons, List.length_nil,
    Option.getD_some]
  rw [if_neg (by simp), if_neg hn, if_neg hp, if_neg (by simp), if_neg (by simp),
    if_neg (by simp [h0x])]
  split
  · rename_i heq
    rw [hv] at heq
    cases heq
  · rename_i addr heq
    rw [hv] at heq
    obtain rfl := Option.some.inj heq
    split
    · rename_i last hl
      split
      · rename_i hr
        exact absurd hr (hdel last hl)
      · rfl
    · rfl

/-- With the same preconditions except del-safety, the `try` block of
`__exec_sym` is entered and `database_modified = True` executes right
after the successful `int` conversion — on the `KeyError` path as well as
on the success path. -/
theorem exec_sym_try_sets_dirty (st : IState) (bin : BinState) (s n a : String)
    (v : Int) (hdis : st.dis = some bin) (hn : n.data ≠ [])
    (hp : n.data.head? ≠ some '|') (h0x : startswith "0x" a = true)
    (hv : parseHexPy a = some v) :
    (exec_sym st [s, n, a]).1.database_modified = true := by
  obtain ⟨d, dirty⟩ := st
  simp only at hdis
  subst hdis
  simp only [exec_sym, List.getD, List.get?, List.length_cons, List.length_nil,
    Option.getD_some]
  rw [if_neg (by simp), if_neg hn, if_neg hp, if_neg (by simp), if_neg (by simp),
    if_neg (by simp [h0x])]
  split
  · rename_i heq
    rw [hv] at heq
    cases heq
  · rename_i addr heq
    split
    · rename_i last hl
      split
      · rfl
      · rfl
    · rfl

/-- `__exec_sym` either leaves the session state untouched (print paths,
the `IndexError` path and every error path before the `try` block), or
only sets the dirty flag (the `KeyError` of `del reverse_symbols[last]`,
caught by the bare `except` after `database_modified = True`), or performs
exactly the save-new-symbol mutation. -/
theorem exec_sym_cases (st : IState) (args : List String) :
    (exec_sym st args).1 = st ∨
    (∃ bin, st.dis = some bin ∧
      (exec_sym st args).1 = { dis := some bin, database_modified := true }) ∨
    (∃ bin v, st.dis = some bin ∧ args.length = 3 ∧
      parseHexPy (args.getD 2 "") = some v ∧
      exec_sym st args =
        ({ dis := some (symStore bin (args.getD 1 "") v),
           database_modified := true }, CmdOut.ok)) := by
  obtain ⟨d, dirty⟩ := st
  cases d with
  | none => exact Or.inl rfl
  | some bin =>
    simp only [exec_sym]
    by_cases h1 : args.length = 1
    · rw [if_pos h1]; exact Or.inl rfl
    rw [if_neg h1]
    by_cases h2 : (args.getD 1 "").data = []
    · rw [if_pos h2]; exact Or.inl rfl
    rw [if_neg h2]
    by_cases h3 : (args.getD 1 "").data.head? = some '|'
    · rw [if_pos h3]
      by_cases h4 : args.length = 2 ∨ args.length > 3
      · rw [if_pos h4]; exact Or.inl rfl
      · rw [if_neg h4]; exact Or.inl rfl
    rw [if_neg h3]
    by_cases h5 : args.length > 3
    · rw [if_pos h5]; exact Or.inl rfl
    rw [if_neg h5]
    by_cases h6 : args.length = 2
    · rw [if_pos h6]; exact Or.inl rfl
    rw [if_neg h6]
    by_cases h7 : ¬ startswith "0x" (args.getD 2 "")
    · rw [if_pos h7]; exact Or.inl rfl
    rw [if_neg h7]
    split
    · exact Or.inl rfl
    · rename_i addr heq
      have hlen : args.length = 3 := by
        cases args with
        | nil => exact absurd rfl h2
        | cons a0 rest => simp only [List.length_cons] at h1 h5 h6 ⊢; omega
      split
      · rename_i last hl
        split
        · exact Or.inr (Or.inl ⟨bin, rfl, rfl⟩)
        · exact Or.inr (Or.inr ⟨bin, addr, rfl, hlen, heq, rfl⟩)
      · exact Or.inr (Or.inr ⟨bin, addr, rfl, hlen, heq, rfl⟩)

/-! ## C2 -/

/-- C2 (exit-guard asymmetry): control returning from the blocking read
loop terminates the `while 1` loop iff the dirty flag is false; a
successful mutating `sym` sets the flag (so end-of-input re-enters the
loop with a warning), a `save` clears it (so end-of-input terminates), and
the `exit` command calls `sys.exit` unconditionally, whatever the flag. -/
theorem C2_exit_guard :
    (∀ st : IState, replAfterLoop st = ReplStep.terminated ↔
      st.database_modified = false) ∧
    (∀ (st : IState) (bin : BinState) (n a : String) (v : Int),
      st.dis = some bin → n.data ≠ [] → n.data.head? ≠ some '|' →
      startswith "0x" a = true → parseHexPy a = some v →
      (exec_sym st ["sym", n, a]).1.database_modified = true ∧
      replAfterLoop (exec_sym st ["sym", n, a]).1 = ReplStep.warnContinue) ∧
    (∀ (st : IState) (args : List String),
      (exec_save st args).1.database_modified = false ∧
      replAfterLoop (exec_save st args).1 = ReplStep.terminated) ∧
    (∀ (st : IState) (args : List String), (exec_exit st args).2 = CmdOut.exits) := by
  refine ⟨?_, ?_, ?_, ?_⟩
  · intro st
    unfold replAfterLoop
    cases h : st.database_modified <;> simp [h]
  · intro st bin n a v hdis hn hp h0x hv
    have hdirty := exec_sym_try_sets_dirty st bin "sym" n a v hdis hn hp h0x hv
    refine ⟨hdirty, ?_⟩
    unfold replAfterLoop
    rw [hdirty]
    rfl
  · intro st args
    exact ⟨rfl, rfl⟩
  · intro st args
    rfl

/-- C2 witness: in a fresh session, `sym main 0x401000` sets the dirty
flag and end-of-input then re-enters the loop; after `save` end-of-input
terminates; `exit` exits even from the dirty state. -/
theorem C2_witness :
    (exec_sym emptySession ["sym", "main", "0x401000"]).1.database_modified = true ∧
    replAfterLoop (exec_sym emptySession ["sym", "main", "0x401000"]).1 =
      ReplStep.warnContinue ∧
    replAfterLoop (exec_save (exec_sym emptySession ["sym", "main", "0x401000"]).1
      ["save"]).1 = ReplStep.terminated ∧
    (exec_exit (exec_sym emptySession ["sym", "main", "0x401000"]).1 ["exit"]).2 =
      CmdOut.exits := by
  obtain ⟨h1, h2⟩ := C2_exit_guard.2.1 emptySession ⟨[], []⟩ "main" "0x401000" 4198400
    rfl (by decide) (by decide) (by decide) (by decide)
  exact ⟨h1, h2, (C2_exit_guard.2.2.1 _ ["save"]).2, C2_exit_guard.2.2.2 _ ["exit"]⟩

/-! ## C4 -/

/-- C4 counterexample: on an input line whose tokenization is empty,
`exec_command` does not return silently — `args[0]` raises `IndexError`. -/
theorem C4_counterexample :
    exec_command [] = DispatchResult.raises "IndexError" ∧
    exec_command [] ≠ DispatchResult.silent := by
  exact ⟨rfl, by decide⟩

/-- C4 (amended): for an input line whose tokenization yields an empty
token list, `exec_command` raises `IndexError` at the `args[0]` subscript;
no executor is invoked and no error message is printed, but the return is
an uncaught exception, not a silent no-op. -/
theorem C4_blank_input :
    exec_command [] = DispatchResult.raises "IndexError" ∧
    (∀ m, exec_command [] ≠ DispatchResult.invokes m) ∧
    (∀ m, exec_command [] ≠ DispatchResult.errorMsg m) := by
  refine ⟨rfl, ?_, ?_⟩ <;> intro m h <;> cases h

/-- C4 witness: the dispatcher on the empty token list does not reach any
executor. -/
theorem C4_witness : exec_command [] ≠ DispatchResult.invokes "sym" :=
  C4_blank_input.2.1 "sym"

/-! ## C5 -/

theorem COMMANDS_keys_nodup : (COMMANDS.map Prod.fst).Nodup := by decide

/-- C5 (exact maxArgs enforcement): for every registered command, a line
with more than `max_args` arguments after the name yields exactly the
error `"<cmd> takes max <N> args"` and never reaches the executor, while a
line with at most `max_args` arguments is never rejected for that reason
(it is dispatched to the executor, or silently dropped for the
executor-less placeholder `set`). -/
theorem C5_max_args_exact (name : String) (c : Command) (rest : List String)
    (hmem : (name, c) ∈ COMMANDS) :
    (rest.length > c.max_args →
      exec_command (name :: rest) =
        DispatchResult.errorMsg (name ++ " takes max " ++ toString c.max_args ++ " args") ∧
      ∀ m, exec_command (name :: rest) ≠ DispatchResult.invokes m) ∧
    (rest.length ≤ c.max_args →
      exec_command (name :: rest) = DispatchResult.silent ∨
      exec_command (name :: rest) = DispatchResult.invokes name) := by
  have hlk : dlookup name COMMANDS = some c := dlookup_of_mem COMMANDS_keys_nodup hmem
  have hred : exec_command (name :: rest) =
      if rest.length > c.max_args then
        DispatchResult.errorMsg (name ++ " takes max " ++ toString c.max_args ++ " args")
      else if c.has_exec then DispatchResult.invokes name
      else DispatchResult.silent := by
    simp only [exec_command, hlk, List.length_cons, Nat.add_sub_cancel]
  constructor
  · intro hgt
    rw [hred, if_pos hgt]
    exact ⟨rfl, fun m h => by cases h⟩
  · intro hle
    rw [hred, if_neg (Nat.not_lt.mpr hle)]
    cases c.has_exec with
    | false => exact Or.inl (by simp)
    | true => exact Or.inr (by simp)

/-- C5 witness: `sym` (max 3 args) with four arguments is rejected with
`"sym takes max 3 args"`; with its maximum three arguments it is
dispatched to the executor. -/
theorem C5_witness :
    exec_command ["sym", "a", "b", "c", "d"] =
      DispatchResult.errorMsg "sym takes max 3 args" ∧
    (exec_command ["sym", "a", "b", "c"] = DispatchResult.silent ∨
      exec_command ["sym", "a", "b", "c"] = DispatchResult.invokes "sym") := by
  refine ⟨?_, ?_⟩
  · exact ((C5_max_args_exact "sym" ⟨3, true, some .x⟩ ["a", "b", "c", "d"]
      (by decide)).1 (by decide)).1
  · exact (C5_max_args_exact "sym" ⟨3, true, some .x⟩ ["a", "b", "c"]
      (by decide)).2 (by decide)

/-! ## C8 -/

/-- C8 (invalid-address atomicity): a `sym NAME ADDR` line whose address
does not start with `0x`, or is not a valid hexadecimal number, reports an
error and leaves the whole session state — both symbol dicts and the dirty
flag — exactly as it was. -/
theorem C8_invalid_address_atomic (st : IState) (bin : BinState) (s n a : String)
    (hdis : st.dis = some bin) (hn : n.data ≠ []) (hp : n.data.head? ≠ some '|')
    (hbad : startswith "0x" a = false ∨ parseHexPy a = none) :
    (exec_sym st [s, n, a]).1 = st ∧
    ∃ m, (exec_sym st [s, n, a]).2 = CmdOut.errMsg m := by
  obtain ⟨d, dirty⟩ := st
  simp only at hdis
  subst hdis
  simp only [exec_sym, List.getD, List.get?, List.length_cons, List.length_nil,
    Option.getD_some]
  rw [if_neg (by simp), if_neg hn, if_neg hp, if_neg (by simp), if_neg (by simp)]
  rcases hbad with hb | hb
  · rw [if_pos (by simp [hb])]
    exact ⟨rfl, _, rfl⟩
  · cases h0x : startswith "0x" a with
    | false =>
      rw [if_pos (by simp [h0x])]
      exact ⟨rfl, _, rfl⟩
    | true =>
      rw [if_neg (by simp [h0x]), hb]
      exact ⟨rfl, _, rfl⟩

/-- C8 witness: in a session with a loaded binary, `sym main zz` (no `0x`)
and `sym main 0xzz` (not hexadecimal) both report an error and leave the
state untouched. -/
theorem C8_witness :
    (exec_sym emptySession ["sym", "main", "zz"]).1 = emptySession ∧
    (∃ m, (exec_sym emptySession ["sym", "main", "zz"]).2 = CmdOut.errMsg m) ∧
    (exec_sym emptySession ["sym", "main", "0xzz"]).1 = emptySession ∧
    ∃ m, (exec_sym emptySession ["sym", "main", "0xzz"]).2 = CmdOut.errMsg m := by
  obtain ⟨h1, h2⟩ := C8_invalid_address_atomic emptySession ⟨[], []⟩ "sym" "main" "zz"
    rfl (by decide) (by decide) (Or.inl (by decide))
  obtain ⟨h3, h4⟩ := C8_invalid_address_atomic emptySession ⟨[], []⟩ "sym" "main" "0xzz"
    rfl (by decide) (by decide) (Or.inr (by decide))
  exact ⟨h1, h2, h3, h4⟩

/-! ## C9 -/

/-- C9 counterexample: the state `symbols = {a: 2, b: 1}`,
`reverse_symbols = {2: a}` is reachable from the empty session by three
successful commands (`sym a 0x1`, `sym b 0x1`, `sym a 0x2` — the last one
deletes the reverse entry `1 ↦ b`).  There `sym b 0x3` rebinds the name
`b`, already present with previous address 1, yet nothing is deleted and
the new pair is not inserted: `del reverse_symbols[1]` raises `KeyError`,
the bare `except` reports an error, and both dicts are left unchanged
(only the dirty flag, already set inside the `try`, is true). -/
theorem C9_counterexample :
    runSyms emptySession [["sym", "a", "0x1"], ["sym", "b", "0x1"], ["sym", "a", "0x2"]] =
      ⟨some ⟨[("a", 2), ("b", 1)], [(2, "a")]⟩, true⟩ ∧
    dlookup "b" [("a", 2), ("b", 1)] = some (1 : Int) ∧
    exec_sym ⟨some ⟨[("a", 2), ("b", 1)], [(2, "a")]⟩, true⟩ ["sym", "b", "0x3"] =
      (⟨some ⟨[("a", 2), ("b", 1)], [(2, "a")]⟩, true⟩,
        CmdOut.errMsg "there was an error when creating a symbol") :=
  ⟨by decide, by decide, by decide⟩

/-- C9 (amended — redefinition removes the stale reverse entry): when
`sym NAME ADDR` rebinds a name already present in the forward dict to a
new address, and the reverse dict still holds an entry at the name's
previous address (as it does in every bijective state), the command
succeeds, that reverse entry is deleted before the new pair is inserted,
so afterwards the old address has no reverse entry at all while the new
pair is present in both dicts.  When the reverse entry at the previous
address is missing — reachable only through earlier bijection-breaking
address reuse — the `del` raises `KeyError` and the bare `except` reports
an error with no dict mutation (see the counterexample). -/
theorem C9_redefinition (st : IState) (bin : BinState) (s n a : String) (v last : Int)
    (hdis : st.dis = some bin) (hn : n.data ≠ []) (hp : n.data.head? ≠ some '|')
    (h0x : startswith "0x" a = true) (hv : parseHexPy a = some v)
    (hlast : dlookup n bin.symbols = some last)
    (hrev : ∃ m, dlookup last bin.reverse_symbols = some m) (hnew : v ≠ last) :
    (exec_sym st [s, n, a]).2 = CmdOut.ok ∧
    ∃ bin2, (exec_sym st [s, n, a]).1.dis = some bin2 ∧
      dlookup last bin2.reverse_symbols = none ∧
      dlookup v bin2.reverse_symbols = some n ∧
      dlookup n bin2.symbols = some v := by
  have hdel : ∀ last0, dlookup n bin.symbols = some last0 →
      dlookup last0 bin.reverse_symbols ≠ none := by
    intro last0 hl0
    rw [hlast] at hl0
    obtain rfl := Option.some.inj hl0
    obtain ⟨m, hm⟩ := hrev
    rw [hm]
    simp
  have hrun := exec_sym_success st bin s n a v hdis hn hp h0x hv hdel
  refine ⟨by rw [hrun], symStore bin n v, by rw [hrun], ?_, ?_, ?_⟩
  · show dlookup last (symStore bin n v).reverse_symbols = none
    unfold symStore
    rw [hlast]
    show dlookup last (dinsert v n (derase last bin.reverse_symbols)) = none
    rw [dlookup_dinsert_ne _ _ _ _ (Ne.symm hnew)]
    exact dlookup_derase_self _ _
  · show dlookup v (symStore bin n v).reverse_symbols = some n
    unfold symStore
    rw [hlast]
    exact dlookup_dinsert_self _ _ _
  · show dlookup n (symStore bin n v).symbols = some v
    unfold symStore
    rw [hlast]
    exact dlookup_dinsert_self _ _ _

/-- C9 witness: in the bijective state `{f: 16} / {16: f}`, rebinding `f`
from `0x10` to `0x20` succeeds, removes the reverse entry for address 16
and installs the pair `(f, 32)` in both dicts. -/
theorem C9_witness :
    (exec_sym ⟨some ⟨[("f", 16)], [(16, "f")]⟩, false⟩ ["sym", "f", "0x20"]).2 =
      CmdOut.ok ∧
    ∃ bin2,
      (exec_sym ⟨some ⟨[("f", 16)], [(16, "f")]⟩, false⟩ ["sym", "f", "0x20"]).1.dis =
        some bin2 ∧
      dlookup 16 bin2.reverse_symbols = none ∧
      dlookup 32 bin2.reverse_symbols = some "f" ∧
      dlookup "f" bin2.symbols = some 32 :=
  C9_redefinition ⟨some ⟨[("f", 16)], [(16, "f")]⟩, false⟩ ⟨[("f", 16)], [(16, "f")]⟩
    "sym" "f" "0x20" 32 16 rfl (by decide) (by decide) (by decide) (by decide)
    (by decide) ⟨"f", by decide⟩ (by decide)

/-! ## C10 -/

/-- C10 (argument completion only at the first argument): every registered
command that has a completion callback (the load family via
`__complete_load`; `x`, the data/dump commands, `sym` and `calls` via
`__complete_x`) returns the empty candidate list for any argument position
other than the first, whatever the file system or loaded binary. -/
theorem C10_first_arg_only (name : String) (c : Command)
    (_hmem : (name, c) ∈ COMMANDS) (_hcomp : c.completer.isSome) :
    ∀ (env : CompleteEnv) (nth_arg : Nat) (last_tok : String), nth_arg ≠ 1 →
      runCompleter env c.completer nth_arg last_tok = some [] := by
  intro env nth_arg last_tok hnth
  match hc : c.completer with
  | none => rfl
  | some .load =>
    simp only [runCompleter, complete_load, if_pos hnth]
  | some .x =>
    simp only [runCompleter, complete_x]
    rw [if_pos (Or.inl hnth)]

/-- C10 witness: completing the second argument of `load` or of `sym`
yields no candidates even with entries in the directory and symbols in the
binary. -/
theorem C10_witness :
    runCompleter ⟨fun _ => some [("file1", false)], some ["main"]⟩
      (some CompleterRef.load) 2 "f" = some [] ∧
    runCompleter ⟨fun _ => some [("file1", false)], some ["main"]⟩
      (some CompleterRef.x) 2 "m" = some [] := by
  constructor
  · exact C10_first_arg_only "load" ⟨1, true, some .load⟩ (by decide) rfl _ 2 "f"
      (by decide)
  · exact C10_first_arg_only "sym" ⟨3, true, some .x⟩ (by decide) rfl _ 2 "m"
      (by decide)

/-! ## C6 -/

/-- Characterization of the `__find_symbol` loop from an arbitrary counter
value below the cap: it aborts with `None` exactly when the counter would
reach `MAX_PRINT_COMPLETE`, i.e. when the number of prefix matches reaches
`MAX_PRINT_COMPLETE - i`, and otherwise returns the suffix of every match. -/
theorem findSymbolAux_char (tok : String) (syms : List String) (i : Nat)
    (h : i < MAX_PRINT_COMPLETE) :
    (i + (syms.filter (fun s => startswith tok s)).length < MAX_PRINT_COMPLETE →
      findSymbolAux tok syms i =
        some ((syms.filter (fun s => startswith tok s)).map
          (fun s => pydrop (s ++ " ") tok.length))) ∧
    (MAX_PRINT_COMPLETE ≤ i + (syms.filter (fun s => startswith tok s)).length →
      findSymbolAux tok syms i = none) := by
  induction syms generalizing i with
  | nil =>
    refine ⟨fun _ => rfl, fun hc => ?_⟩
    simp only [List.filter_nil, List.length_nil, Nat.add_zero] at hc
    omega
  | cons s rest ih =>
    by_cases hs : startswith tok s
    · have hfc : (s :: rest).filter (fun x => startswith tok x) =
          s :: rest.filter (fun x => startswith tok x) :=
        List.filter_cons_of_pos hs
      rw [hfc]
      simp only [List.length_cons, List.map_cons]
      constructor
      · intro hlt
        simp only [findSymbolAux, if_pos hs]
        rw [if_neg (by omega)]
        rw [(ih (i + 1) (by omega)).1 (by omega)]
      · intro hge
        simp only [findSymbolAux, if_pos hs]
        by_cases he : i + 1 = MAX_PRINT_COMPLETE
        · rw [if_pos he]
        · rw [if_neg he, (ih (i + 1) (by omega)).2 (by omega)]
    · have hfc : (s :: rest).filter (fun x => startswith tok x) =
          rest.filter (fun x => startswith tok x) :=
        List.filter_cons_of_neg (by simpa using hs)
      rw [hfc]
      simp only [findSymbolAux, if_neg hs]
      exact ih i h

/-- Characterization of the `__complete_load` directory loop from an
arbitrary counter value below the cap: the same `i == MAX_PRINT_COMPLETE`
check as in the other two loops aborts with `None` exactly when the number
of basename matches reaches `MAX_PRINT_COMPLETE - i`, and otherwise every
matching entry is returned (escaped, suffixed with `/` or a space, and cut
after the basename). -/
theorem completeLoadAux_char (base : String) (entries : List (String × Bool)) (i : Nat)
    (h : i < MAX_PRINT_COMPLETE) :
    (i + (entries.filter (fun e => startswith base e.1)).length < MAX_PRINT_COMPLETE →
      completeLoadAux base entries i =
        some ((entries.filter (fun e => startswith base e.1)).map
          (fun e => pydrop (if e.2 then escapeSpaces e.1 ++ "/" else escapeSpaces e.1 ++ " ")
            base.length))) ∧
    (MAX_PRINT_COMPLETE ≤ i + (entries.filter (fun e => startswith base e.1)).length →
      completeLoadAux base entries i = none) := by
  induction entries generalizing i with
  | nil =>
    refine ⟨fun _ => rfl, fun hc => ?_⟩
    simp only [List.filter_nil, List.length_nil, Nat.add_zero] at hc
    omega
  | cons e rest ih =>
    obtain ⟨f, dir⟩ := e
    by_cases hs : startswith base f
    · have hfc : ((f, dir) :: rest).filter (fun e => startswith base e.1) =
          (f, dir) :: rest.filter (fun e => startswith base e.1) :=
        List.filter_cons_of_pos hs
      rw [hfc]
      simp only [List.length_cons, List.map_cons]
      constructor
      · intro hlt
        simp only [completeLoadAux, if_pos hs]
        rw [if_neg (by omega)]
        rw [(ih (i + 1) (by omega)).1 (by omega)]
      · intro hge
        simp only [completeLoadAux, if_pos hs]
        by_cases he : i + 1 = MAX_PRINT_COMPLETE
        · rw [if_pos he]
        · rw [if_neg he, (ih (i + 1) (by omega)).2 (by omega)]
    · have hfc : ((f, dir) :: rest).filter (fun e => startswith base e.1) =
          rest.filter (fun e => startswith base e.1) :=
        List.filter_cons_of_neg (by simpa using hs)
      rw [hfc]
      simp only [completeLoadAux, if_neg hs]
      exact ih i h

/-- Characterization of the command-name completion loop when the match
count stays below the cap. -/
theorem commandCompleteAux_below (tok : String) (cmds : List String) (i : Nat)
    (h : i + (cmds.filter (fun c => startswith tok c)).length < MAX_PRINT_COMPLETE) :
    commandCompleteAux tok cmds i =
      some ((cmds.filter (fun c => startswith tok c)).map
        (fun c => pydrop c tok.length ++ " ")) := by
  induction cmds generalizing i with
  | nil => rfl
  | cons s rest ih =>
    by_cases hs : startswith tok s
    · have hfc : (s :: rest).filter (fun x => startswith tok x) =
          s :: rest.filter (fun x => startswith tok x) :=
        List.filter_cons_of_pos hs
      rw [hfc] at h ⊢
      simp only [List.length_cons] at h
      simp only [findSymbolAux, commandCompleteAux, if_pos hs]
      rw [if_neg (by omega), ih (i + 1) (by omega)]
      simp
    · have hfc : (s :: rest).filter (fun x => startswith tok x) =
          rest.filter (fun x => startswith tok x) :=
        List.filter_cons_of_neg (by simpa using hs)
      rw [hfc] at h ⊢
      simp only [commandCompleteAux, if_neg hs]
      exact ih i h

/-- C6 counterexample: with exactly 80 matching symbol names, symbol
completion aborts with the "too many" sentinel (`None`) although the claim
promises the full candidate list whenever at most 80 names match. -/
theorem C6_counterexample :
    (sym80.filter (fun s => startswith "" s)).length = 80 ∧
    find_symbol sym80 "" = none :=
  ⟨by decide, by decide⟩

/-- C6 (amended): completion — symbol completion, path completion and
command-name completion alike — returns the full candidate list when at
most 79 names match the current prefix and aborts with the distinguished
`None` sentinel (a returned value, not an exception) exactly when 80 or
more names match: in all three loops the counter check
`i == MAX_PRINT_COMPLETE` fires on the 80th match.  Command-name
completion, whose candidate pool `COMMANDS_ALPHA` has fewer than 80
entries, therefore always returns the full list of matches. -/
theorem C6_cap (syms : List String) (tok : String) :
    ((syms.filter (fun s => startswith tok s)).length < MAX_PRINT_COMPLETE →
      find_symbol syms tok =
        some ((syms.filter (fun s => startswith tok s)).map
          (fun s => pydrop (s ++ " ") tok.length))) ∧
    (MAX_PRINT_COMPLETE ≤ (syms.filter (fun s => startswith tok s)).length →
      find_symbol syms tok = none) ∧
    (∀ (entries : List (String × Bool)) (base : String),
      ((entries.filter (fun e => startswith base e.1)).length < MAX_PRINT_COMPLETE →
        completeLoadAux base entries 0 =
          some ((entries.filter (fun e => startswith base e.1)).map
            (fun e => pydrop
              (if e.2 then escapeSpaces e.1 ++ "/" else escapeSpaces e.1 ++ " ")
              base.length))) ∧
      (MAX_PRINT_COMPLETE ≤ (entries.filter (fun e => startswith base e.1)).length →
        completeLoadAux base entries 0 = none)) ∧
    (∀ t : String, commandNameComplete t =
      some ((COMMANDS_ALPHA.filter (fun c => startswith t c)).map
        (fun c => pydrop c t.length ++ " "))) := by
  have hchar := findSymbolAux_char tok syms 0 (by decide)
  refine ⟨fun hlt => ?_, fun hge => ?_, fun entries base => ?_, fun t => ?_⟩
  · exact hchar.1 (by omega)
  · exact hchar.2 (by omega)
  · have hload := completeLoadAux_char base entries 0 (by decide)
    exact ⟨fun hlt => hload.1 (by omega), fun hge => hload.2 (by omega)⟩
  · refine commandCompleteAux_below t COMMANDS_ALPHA 0 ?_
    have hle : (COMMANDS_ALPHA.filter (fun c => startswith t c)).length ≤
        COMMANDS_ALPHA.length := List.length_filter_le _ _
    have : COMMANDS_ALPHA.length = 22 := by decide
    simp only [MAX_PRINT_COMPLETE]
    omega

/-- C6 witness: 79 or fewer matches are all returned — here two symbols
with one match, a three-entry directory with two matches (a file and a
directory, with their `" "` and `"/"` suffixes), and command-name
completion over the fixed 22-name list. -/
theorem C6_witness :
    find_symbol ["alpha", "beta"] "a" = some ["lpha "] ∧
    completeLoadAux "f" [("file1", false), ("fdir", true), ("other", false)] 0 =
      some ["ile1 ", "dir/"] ∧
    commandNameComplete "lraw" =
      some ((COMMANDS_ALPHA.filter (fun c => startswith "lraw" c)).map
        (fun c => pydrop c "lraw".length ++ " ")) :=
  ⟨(C6_cap ["alpha", "beta"] "a").1 (by decide),
    ((C6_cap [] "").2.2.1 [("file1", false), ("fdir", true), ("other", false)] "f").1
      (by decide),
    (C6_cap [] "").2.2.2 "lraw"⟩

/-! ## C7 -/

/-- C7 counterexample: completing `"lo"` as the sole token yields exactly
one candidate, `"ad "` (only `load` starts with `lo`; the `lraw*` names
start with `lr`), not five candidates with common prefix `"ad"` — with a
single candidate no common prefix is even computed. -/
theorem C7_counterexample :
    complete emptyEnv ["lo_"] = (some ["ad "], some "lo", none) ∧
    (complete emptyEnv ["lo_"]).1 ≠ some ["ad ", "ad ", "ad ", "ad ", "ad "] ∧
    (complete emptyEnv ["lo_"]).2.2 ≠ some "ad" := by
  refine ⟨rfl, by decide, by decide⟩

/-- C7 (amended): with the registered command list, completing `"lo"` as
the sole token returns the single candidate `"ad "` (the remainder of
`load` plus the trailing separator) and no common prefix. -/
theorem C7_complete_lo (env : CompleteEnv) :
    complete env ["lo_"] = (some ["ad "], some "lo", none) := rfl

/-- C7 witness: the amended statement at the concrete empty environment. -/
theorem C7_witness : complete emptyEnv ["lo_"] = (some ["ad "], some "lo", none) :=
  C7_complete_lo emptyEnv

/-! ## C3: the common-string computation -/

/-- The reference word is one of the candidates and has minimal length. -/
theorem lastMinWord_spec (w : String) (ws : List String) :
    (ws.foldl (fun best x => if x.length ≤ best.length then x else best) w) ∈ w :: ws ∧
    ∀ c ∈ w :: ws,
      (ws.foldl (fun best x => if x.length ≤ best.length then x else best) w).length ≤
        c.length := by
  induction ws generalizing w with
  | nil =>
    refine ⟨List.mem_singleton_self w, ?_⟩
    intro c hc
    rw [List.mem_singleton] at hc
    subst hc
    exact le_refl _
  | cons x xs ih =>
    simp only [List.foldl_cons]
    by_cases hx : x.length ≤ w.length
    · rw [if_pos hx]
      obtain ⟨ihm, ihmin⟩ := ih x
      constructor
      · rcases List.mem_cons.mp ihm with h | h
        · rw [h]
          exact List.mem_cons_of_mem _ (List.mem_cons_self _ _)
        · exact List.mem_cons_of_mem _ (List.mem_cons_of_mem _ h)
      · intro c hc
        have hhead := ihmin x (List.mem_cons_self _ _)
        rcases List.mem_cons.mp hc with rfl | hc2
        · exact le_trans hhead hx
        rcases List.mem_cons.mp hc2 with rfl | hc3
        · exact hhead
        · exact ihmin _ (List.mem_cons_of_mem _ hc3)
    · rw [if_neg hx]
      obtain ⟨ihm, ihmin⟩ := ih w
      constructor
      · rcases List.mem_cons.mp ihm with h | h
        · rw [h]
          exact List.mem_cons_self _ _
        · exact List.mem_cons_of_mem _ (List.mem_cons_of_mem _ h)
      · intro c hc
        have hhead := ihmin w (List.mem_cons_self _ _)
        rcases List.mem_cons.mp hc with rfl | hc2
        · exact hhead
        rcases List.mem_cons.mp hc2 with rfl | hc3
        · exact le_trans hhead (by omega)
        · exact ihmin _ (List.mem_cons_of_mem _ hc3)

/-- A list prefix agrees pointwise with the longer list. -/
theorem pointwise_of_isPrefix {l : List Char} :
    ∀ {w : List Char}, l <+: w → ∀ j c, l.get? j = some c → w.get? j = some c := by
  induction l with
  | nil =>
    intro w _ j c hj
    simp [List.get?] at hj
  | cons a l ih =>
    intro w hpre j c hj
    obtain ⟨t, rfl⟩ := hpre
    match j with
    | 0 => exact hj
    | Nat.succ j => exact ih ⟨t, rfl⟩ j c hj

/-- Pointwise agreement on every defined position makes a list a prefix. -/
theorem isPrefix_of_pointwise {l : List Char} :
    ∀ {w : List Char}, (∀ j c, l.get? j = some c → w.get? j = some c) → l <+: w := by
  induction l with
  | nil => intro w _; exact List.nil_prefix
  | cons a l ih =>
    intro w h
    match w, h 0 a rfl with
    | b :: w', h0 =>
      have hba : b = a := by simpa [List.get?] using h0
      subst hba
      obtain ⟨t, rfl⟩ := ih (fun j c hj => h (j + 1) c hj)
      exact ⟨t, rfl⟩

/-- The character scan returns a prefix of the reference word. -/
theorem commonLoop_isPrefix (words : List (List Char)) :
    ∀ (ref : List Char) (i : Nat), commonLoop words ref i <+: ref := by
  intro ref
  induction ref with
  | nil => intro i; exact List.nil_prefix
  | cons c rest ih =>
    intro i
    simp only [commonLoop]
    split
    · obtain ⟨t, ht⟩ := ih (i + 1)
      exact ⟨t, by rw [List.cons_append, ht]⟩
    · exact List.nil_prefix

/-- Every word agrees with the character scan's output at the scanned
offsets. -/
theorem commonLoop_agrees (words : List (List Char)) :
    ∀ (ref : List Char) (i : Nat) (w : List Char), w ∈ words →
      ∀ j c, (commonLoop words ref i).get? j = some c → w.get? (i + j) = some c := by
  intro ref
  induction ref with
  | nil =>
    intro i w _ j c hj
    simp [commonLoop, List.get?] at hj
  | cons ch rest ih =>
    intro i w hw j c hj
    simp only [commonLoop] at hj
    split at hj
    · rename_i hall
      match j, hj with
      | 0, hj =>
        have hc : ch = c := by simpa [List.get?] using hj
        subst hc
        have hd := List.all_eq_true.mp hall w hw
        simpa [Nat.add_zero] using of_decide_eq_true hd
      | Nat.succ j, hj =>
        have := ih (i + 1) w hw j c hj
        rwa [show i + 1 + j = i + j.succ by omega] at this
    · simp [List.get?] at hj

/-- Any prefix of the reference word on which every word agrees is no
longer than the character scan's output. -/
theorem commonLoop_maximal (words : List (List Char)) :
    ∀ (ref l : List Char) (i : Nat), l <+: ref →
      (∀ w ∈ words, ∀ j c, l.get? j = some c → w.get? (i + j) = some c) →
      l.length ≤ (commonLoop words ref i).length := by
  intro ref
  induction ref with
  | nil =>
    intro l i hpre _
    exact hpre.length_le
  | cons ch rest ih =>
    intro l i hpre hagree
    match l, hpre with
    | [], _ => exact Nat.zero_le _
    | d :: l', hpre =>
      obtain ⟨t, ht⟩ := hpre
      rw [List.cons_append] at ht
      injection ht with hd ht'
      subst hd
      have hall : words.all (fun w => w.get? i = some d) = true := by
        rw [List.all_eq_true]
        intro w hw
        exact decide_eq_true (by simpa using hagree w hw 0 d rfl)
      simp only [commonLoop, if_pos hall, List.length_cons]
      refine Nat.succ_le_succ (ih l' (i + 1) ⟨t, ht'⟩ ?_)
      intro w hw j c hj
      have := hagree w hw (j + 1) c hj
      rwa [show i + (j + 1) = (i + 1) + j by omega] at this

/-- C3 (longest-common-prefix correctness): with more than one candidate,
`complete` returns as its third component the common string, which is a
prefix of every candidate, is at least as long as any common prefix of all
candidates, and never exceeds the length of the reference word — itself of
minimal length, so every index read during the scan is in range for every
candidate.  With at most one candidate no common string is computed. -/
theorem C3_longest_common (comp : List String) (tok : String) (h2 : 2 ≤ comp.length) :
    (completeResult (some comp) tok).2.2 = some (commonString comp) ∧
    (∀ c ∈ comp, (commonString comp).data <+: c.data) ∧
    (∀ s : String, (∀ c ∈ comp, s.data <+: c.data) →
      s.length ≤ (commonString comp).length) ∧
    (∀ c ∈ comp, (commonString comp).length ≤ (lastMinWord comp).length ∧
      (lastMinWord comp).length ≤ c.length) ∧
    (∀ (cs : List String) (t : String), cs.length ≤ 1 →
      (completeResult (some cs) t).2.2 = none) := by
  match comp, h2 with
  | w :: ws, h2 =>
    obtain ⟨hmem, hmin⟩ := lastMinWord_spec w ws
    have hmem' : lastMinWord (w :: ws) ∈ w :: ws := hmem
    have hmin' : ∀ c ∈ w :: ws, (lastMinWord (w :: ws)).length ≤ c.length := hmin
    refine ⟨?_, ?_, ?_, ?_, ?_⟩
    · simp only [completeResult]
      rw [if_neg (by simp only [List.length_cons] at h2 ⊢; omega)]
    · intro c hc
      refine isPrefix_of_pointwise ?_
      intro j ch hj
      have := commonLoop_agrees ((w :: ws).map String.data) (lastMinWord (w :: ws)).data 0
        c.data (List.mem_map_of_mem _ hc) j ch hj
      simpa using this
    · intro s hs
      have hpre : s.data <+: (lastMinWord (w :: ws)).data := hs _ hmem'
      have hagree : ∀ x ∈ (w :: ws).map String.data, ∀ j c,
          s.data.get? j = some c → x.get? (0 + j) = some c := by
        intro x hx j c hj
        obtain ⟨c0, hc0, rfl⟩ := List.mem_map.mp hx
        simpa using pointwise_of_isPrefix (hs c0 hc0) j c hj
      exact commonLoop_maximal _ _ _ 0 hpre hagree
    · intro c hc
      refine ⟨?_, hmin' c hc⟩
      exact (commonLoop_isPrefix ((w :: ws).map String.data)
        (lastMinWord (w :: ws)).data 0).length_le
    · intro cs t hle
      simp only [completeResult]
      rw [if_pos hle]

/-- C3 witness: for the two candidates `abc ` and `abd `, `complete`'s
third component is the computed common string, which evaluates to `ab`. -/
theorem C3_witness :
    (completeResult (some ["abc ", "abd "]) "ab").2.2 =
      some (commonString ["abc ", "abd "]) ∧
    commonString ["abc ", "abd "] = "ab" :=
  ⟨(C3_longest_common ["abc ", "abd "] "ab" (by decide)).1, by decide⟩

/-! ## C1: the symbol-table bijection -/

/-- Under the bijection invariant the forward dict is injective: no
address is the image of two names. -/
theorem Bij_inj (fwd : List (String × Int)) (rev : List (Int × String))
    (hbij : Bij fwd rev) :
    ∀ n1 n2 a, dlookup n1 fwd = some a → dlookup n2 fwd = some a → n1 = n2 := by
  intro n1 n2 a h1 h2
  have r1 := hbij.1 n1 a h1
  have r2 := hbij.1 n2 a h2
  rw [r1] at r2
  exact Option.some.inj r2

/-- The save-new-symbol mutation preserves the bijection whenever the
stored address is not currently held by a different name. -/
theorem symStore_preserves_bij (bin : BinState) (n : String) (v : Int)
    (hbij : Bij bin.symbols bin.reverse_symbols)
    (hfresh : dlookup v bin.reverse_symbols = none ∨
      dlookup v bin.reverse_symbols = some n) :
    Bij (symStore bin n v).symbols (symStore bin n v).reverse_symbols := by
  obtain ⟨hfr, hrf⟩ := hbij
  cases hl : dlookup n bin.symbols with
  | some last =>
    have hfwd : (symStore bin n v).symbols = dinsert n v bin.symbols := by
      unfold symStore
      rw [hl]
    have hrev : (symStore bin n v).reverse_symbols =
        dinsert v n (derase last bin.reverse_symbols) := by
      unfold symStore
      rw [hl]
    rw [hfwd, hrev]
    constructor
    · intro m a hma
      by_cases hm : m = n
      · subst hm
        rw [dlookup_dinsert_self] at hma
        obtain rfl := Option.some.inj hma
        exact dlookup_dinsert_self _ _ _
      · rw [dlookup_dinsert_ne _ _ _ _ hm] at hma
        have hra := hfr m a hma
        have hav : a ≠ v := by
          intro hEq
          subst hEq
          rcases hfresh with hfv | hfv
          · rw [hra] at hfv
            cases hfv
          · rw [hra] at hfv
            exact hm (Option.some.inj hfv)
        rw [dlookup_dinsert_ne _ _ _ _ hav]
        have hal : a ≠ last := by
          intro hEq
          subst hEq
          have hn := hfr n a hl
          rw [hra] at hn
          exact hm (Option.some.inj hn)
        rw [dlookup_derase_ne _ _ _ hal]
        exact hra
    · intro a m hma
      by_cases ha : a = v
      · subst ha
        rw [dlookup_dinsert_self] at hma
        obtain rfl := Option.some.inj hma
        exact dlookup_dinsert_self _ _ _
      · rw [dlookup_dinsert_ne _ _ _ _ ha] at hma
        have hal : a ≠ last := by
          intro hEq
          subst hEq
          rw [dlookup_derase_self] at hma
          cases hma
        rw [dlookup_derase_ne _ _ _ hal] at hma
        have hfa := hrf a m hma
        have hmn : m ≠ n := by
          intro hEq
          subst hEq
          rw [hl] at hfa
          exact hal (Option.some.inj hfa).symm
        rw [dlookup_dinsert_ne _ _ _ _ hmn]
        exact hfa
  | none =>
    have hfwd : (symStore bin n v).symbols = dinsert n v bin.symbols := by
      unfold symStore
      rw [hl]
    have hrev : (symStore bin n v).reverse_symbols =
        dinsert v n bin.reverse_symbols := by
      unfold symStore
      rw [hl]
    rw [hfwd, hrev]
    constructor
    · intro m a hma
      by_cases hm : m = n
      · subst hm
        rw [dlookup_dinsert_self] at hma
        obtain rfl := Option.some.inj hma
        exact dlookup_dinsert_self _ _ _
      · rw [dlookup_dinsert_ne _ _ _ _ hm] at hma
        have hra := hfr m a hma
        have hav : a ≠ v := by
          intro hEq
          subst hEq
          rcases hfresh with hfv | hfv
          · rw [hra] at hfv
            cases hfv
          · rw [hra] at hfv
            exact hm (Option.some.inj hfv)
        rw [dlookup_dinsert_ne _ _ _ _ hav]
        exact hra
    · intro a m hma
      by_cases ha : a = v
      · subst ha
        rw [dlookup_dinsert_self] at hma
        obtain rfl := Option.some.inj hma
        exact dlookup_dinsert_self _ _ _
      · rw [dlookup_dinsert_ne _ _ _ _ ha] at hma
        have hfa := hrf a m hma
        have hmn : m ≠ n := by
          intro hEq
          subst hEq
          rw [hl] at hfa
          cases hfa
        rw [dlookup_dinsert_ne _ _ _ _ hmn]
        exact hfa

/-- C1 counterexample: from the empty (bijective) symbol table, the two
successful commands `sym a 0x1` and `sym b 0x1` leave the forward dict
with both `a ↦ 1` and `b ↦ 1` while reverse lookup of 1 yields only `b`:
the pair `(a, 1)` is in the forward map but reverse lookup of its address
does not yield `a`, so the two maps no longer form a bijection. -/
theorem C1_counterexample :
    Bij ([] : List (String × Int)) ([] : List (Int × String)) ∧
    (exec_sym emptySession ["sym", "a", "0x1"]).2 = CmdOut.ok ∧
    (exec_sym (exec_sym emptySession ["sym", "a", "0x1"]).1 ["sym", "b", "0x1"]).2 =
      CmdOut.ok ∧
    ∃ bin2,
      (runSyms emptySession [["sym", "a", "0x1"], ["sym", "b", "0x1"]]).dis = some bin2 ∧
      dlookup "a" bin2.symbols = some 1 ∧
      dlookup "b" bin2.symbols = some 1 ∧
      dlookup (1 : Int) bin2.reverse_symbols = some "b" ∧
      ¬ Bij bin2.symbols bin2.reverse_symbols := by
  refine ⟨⟨fun n a h => by simp [dlookup] at h, fun a n h => by simp [dlookup] at h⟩,
    by decide, by decide, ⟨[("a", 1), ("b", 1)], [(1, "b")]⟩, by decide, by decide,
    by decide, by decide, ?_⟩
  rintro ⟨h1, -⟩
  have := h1 "a" 1 (by decide)
  exact absurd this (by decide)

/-- C1 (amended): starting from a state whose forward and reverse symbol
dicts form a bijection, any sequence of `sym` commands in which every
successfully stored address is fresh — not currently held by a different
name in the reverse dict — leaves the two dicts a bijection, and in
particular no address is mapped to by more than one name.  (Without the
freshness condition the invariant fails, see the counterexample: the code
cleans up the stale reverse entry of a redefined name but not the stale
forward entry of a reused address.) -/
theorem C1_bijection_preserved (st : IState) (bin : BinState)
    (cmds : List (List String)) (hdis : st.dis = some bin)
    (hbij : Bij bin.symbols bin.reverse_symbols) (hfresh : FreshSeq st cmds) :
    ∃ bin2, (runSyms st cmds).dis = some bin2 ∧
      Bij bin2.symbols bin2.reverse_symbols ∧
      ∀ n1 n2 a, dlookup n1 bin2.symbols = some a →
        dlookup n2 bin2.symbols = some a → n1 = n2 := by
  induction cmds generalizing st bin with
  | nil => exact ⟨bin, hdis, hbij, Bij_inj _ _ hbij⟩
  | cons args rest ih =>
    cases hfresh with
    | cons _ _ _ hcond hrest =>
      rcases exec_sym_cases st args with hsame | ⟨bin0, hdis0, hstate⟩ |
        ⟨bin0, v, hdis0, hlen, hv, hrun⟩
      · refine ih (exec_sym st args).1 bin ?_ hbij hrest
        rw [hsame, hdis]
      · -- the caught KeyError of the `del`: only the dirty flag changed
        rw [hdis] at hdis0
        obtain rfl := Option.some.inj hdis0
        refine ih (exec_sym st args).1 bin ?_ hbij hrest
        rw [hstate]
      · rw [hdis] at hdis0
        obtain rfl := Option.some.inj hdis0
        have hargs : args = [args.getD 0 "", args.getD 1 "", args.getD 2 ""] := by
          cases args with
          | nil => cases hlen
          | cons a0 t0 =>
            cases t0 with
            | nil => cases hlen
            | cons a1 t1 =>
              cases t1 with
              | nil => cases hlen
              | cons a2 t2 =>
                cases t2 with
                | nil => rfl
                | cons a3 t3 =>
                  simp only [List.length_cons] at hlen
                  omega
        have hfr : dlookup v bin.reverse_symbols = none ∨
            dlookup v bin.reverse_symbols = some (args.getD 1 "") :=
          hcond bin _ _ _ v hdis hargs hv
        have hb2 := symStore_preserves_bij bin (args.getD 1 "") v hbij hfr
        refine ih (exec_sym st args).1 (symStore bin (args.getD 1 "") v) ?_ hb2 hrest
        rw [hrun]

/-- C1 witness: from a fresh session, storing `main ↦ 0x401000` (a fresh
address) keeps the two dicts a bijection. -/
theorem C1_witness :
    ∃ bin2, (runSyms emptySession [["sym", "main", "0x401000"]]).dis = some bin2 ∧
      Bij bin2.symbols bin2.reverse_symbols ∧
      ∀ n1 n2 a, dlookup n1 bin2.symbols = some a →
        dlookup n2 bin2.symbols = some a → n1 = n2 := by
  refine C1_bijection_preserved emptySession ⟨[], []⟩ _ rfl
    ⟨fun n a h => by simp [dlookup] at h, fun a n h => by simp [dlookup] at h⟩ ?_
  refine FreshSeq.cons _ _ _ ?_ (FreshSeq.nil _)
  intro bin s n a v hd _ _
  rw [show emptySession.dis = some (⟨[], []⟩ : BinState) from rfl] at hd
  obtain rfl := Option.some.inj hd
  exact Or.inl rfl

end Plasma
